import Mathlib

/-!
Verification of the SQL statement splitter of `bit2` (src/commands/new.js,
`splitSqlStatements`, lines 112-158), together with the simplified variant
duplicated at new.js lines 277-287 and deploy.js lines 315-321.

The splitter is embedded over `List Char`: a JavaScript string is its list of
characters.  `String.prototype.trim`, `String.prototype.split` and the
character scan of the source are translated one construct at a time.
-/

namespace Bit2

/-- Whitespace characters removed by `String.prototype.trim` (ASCII range). -/
def isWS (c : Char) : Bool :=
  c = ' ' || c = '\t' || c = '\n' || c = '\r' || c = '\x0b' || c = '\x0c'

/-- Model of `s.trim()`: drop whitespace from both ends. -/
def trim (l : List Char) : List Char :=
  List.rdropWhile isWS (List.dropWhile isWS l)

/-- Model of `s.startsWith('--')`. -/
def startsDashDash : List Char → Bool
  | c1 :: c2 :: _ => c1 = '-' && c2 = '-'
  | _ => false

/-- The line filter of the source:
`!line.trim().startsWith('--') && line.trim() !== ''`. -/
def keepLine (line : List Char) : Bool :=
  !startsDashDash (trim line) && !(trim line).isEmpty

/-- Lines of the script that survive the comment/blank filter, rejoined with
newlines (new.js lines 113-115).  `List.splitOn '\n'` is the model of
JavaScript's `sql.split('\n')`: one (possibly empty) piece per newline. -/
def cleanSql (sql : List Char) : List Char :=
  List.intercalate ['\n'] ((sql.splitOn '\n').filter keepLine)

/-- The character scan of new.js lines 117-155: walk the cleaned script with
the two quote flags, cutting statements at unquoted semicolons.  `cur` is
`currentStatement`, `acc` is `statements`. -/
def scanAux : List Char → Bool → Bool → List Char → List (List Char) → List (List Char)
  | [], _, _, cur, acc =>
      if (trim cur).isEmpty then acc else acc ++ [trim cur]
  | c :: rest, inS, inD, cur, acc =>
      if c = '\'' && !inD then
        match rest with
        | '\'' :: rest2 => scanAux rest2 inS inD (cur ++ ['\'', '\'']) acc
        | r => scanAux r (!inS) inD (cur ++ [c]) acc
      else if c = '"' && !inS then
        scanAux rest inS (!inD) (cur ++ [c]) acc
      else if c = ';' && !inS && !inD then
        scanAux rest inS inD []
          (if (trim cur).isEmpty then acc else acc ++ [trim cur])
      else
        scanAux rest inS inD (cur ++ [c]) acc
termination_by structural l => l

/-- The quote-aware splitter `splitSqlStatements` of new.js lines 112-158
(also delete.js lines 1337-1360). -/
def splitSqlStatements (sql : List Char) : List (List Char) :=
  scanAux (cleanSql sql) false false [] []

/-- The simplified splitter copied at new.js lines 277-287 and deploy.js
lines 315-321: same line filter, then a plain split on `;`. -/
def splitSqlSimple (sql : List Char) : List (List Char) :=
  (((cleanSql sql).splitOn ';').map trim).filter (fun s => !s.isEmpty)

/-- Statements obtained by cutting `l` at top-level semicolons, given that the
buffer already holds `cur`; matches the behaviour of `scanAux` on quote-free
input. -/
def tailSplit (cur l : List Char) : List (List Char) :=
  match l.splitOn ';' with
  | [] => []
  | h :: t => (((cur ++ h) :: t).map trim).filter (fun s => !s.isEmpty)

/-- The script obtained by terminating every statement of `ts` with `';'`;
equal to `List.intercalate [';'] ts ++ [';']` for non-empty `ts`. -/
def joinStmts : List (List Char) → List Char
  | [] => []
  | t :: ts => t ++ ';' :: joinStmts ts

/-- The script obtained by joining the statements of `ts` with `";\n"`;
equal to `List.intercalate [';', '\n'] ts`. -/
def joinSep : List (List Char) → List Char
  | [] => []
  | [t] => t
  | t :: ts => t ++ ';' :: '\n' :: joinSep ts

/-- The scan of new.js lines 121-149 with an explicit iteration budget: each
loop iteration consumes one unit of fuel and advances one or two positions;
`none` means the budget ran out before the input was exhausted. -/
def scanFuel : Nat → List Char → Bool → Bool → List Char → List (List Char) →
    Option (List (List Char))
  | _, [], _, _, cur, acc =>
      some (if (trim cur).isEmpty then acc else acc ++ [trim cur])
  | 0, _ :: _, _, _, _, _ => none
  | n + 1, c :: rest, inS, inD, cur, acc =>
      if c = '\'' && !inD then
        match rest with
        | '\'' :: rest2 => scanFuel n rest2 inS inD (cur ++ ['\'', '\'']) acc
        | r => scanFuel n r (!inS) inD (cur ++ [c]) acc
      else if c = '"' && !inS then
        scanFuel n rest inS (!inD) (cur ++ [c]) acc
      else if c = ';' && !inS && !inD then
        scanFuel n rest inS inD []
          (if (trim cur).isEmpty then acc else acc ++ [trim cur])
      else
        scanFuel n rest inS inD (cur ++ [c]) acc

/-! ### Facts about `trim` -/

theorem dropWhile_decomp (p : Char → Bool) (l : List Char) :
    ∃ t, (∀ c ∈ t, p c = true) ∧ l = t ++ List.dropWhile p l := by
  refine ⟨l.takeWhile p, ?_, (List.takeWhile_append_dropWhile p l).symm⟩
  intro c hc
  exact List.mem_takeWhile_imp hc

theorem rdropWhile_decomp (p : Char → Bool) (l : List Char) :
    ∃ t, (∀ c ∈ t, p c = true) ∧ l = List.rdropWhile p l ++ t := by
  refine ⟨(l.reverse.takeWhile p).reverse, ?_, ?_⟩
  · intro c hc
    rw [List.mem_reverse] at hc
    exact List.mem_takeWhile_imp hc
  · have h := congrArg List.reverse (List.takeWhile_append_dropWhile p l.reverse)
    simp only [List.reverse_append, List.reverse_reverse] at h
    rw [List.rdropWhile]
    exact h.symm

theorem dropWhile_head_false {p : Char → Bool} {c : Char} {r : List Char} :
    ∀ {l : List Char}, List.dropWhile p l = c :: r → p c = false := by
  intro l
  induction l with
  | nil => intro h; simp at h
  | cons a l ih =>
    intro h
    rw [List.dropWhile_cons] at h
    by_cases hp : p a = true
    · rw [if_pos hp] at h
      exact ih h
    · rw [if_neg hp] at h
      injection h with h1 _
      rw [← h1]
      exact Bool.eq_false_iff.mpr hp

theorem trim_nil : trim [] = [] := rfl

theorem trim_cons_of_ws {c : Char} (h : isWS c = true) (l : List Char) :
    trim (c :: l) = trim l := by
  simp [trim, List.dropWhile_cons, h]

theorem trim_eq_nil_of_all_ws {l : List Char} (h : ∀ c ∈ l, isWS c = true) :
    trim l = [] := by
  have h1 : List.dropWhile isWS l = [] := List.dropWhile_eq_nil_iff.mpr h
  simp [trim, h1]

theorem trim_eq_nil_iff {l : List Char} :
    trim l = [] ↔ ∀ c ∈ l, isWS c = true := by
  constructor
  · intro h c hc
    by_contra hws
    rcases hd : List.dropWhile isWS l with _ | ⟨d, r⟩
    · rw [List.dropWhile_eq_nil_iff] at hd
      exact hws (hd c hc)
    · rw [trim, hd, List.rdropWhile_eq_nil_iff] at h
      have htrue := h d (List.mem_cons_self _ _)
      have hdf : isWS d = false := dropWhile_head_false hd
      rw [hdf] at htrue
      exact Bool.false_ne_true htrue
  · exact trim_eq_nil_of_all_ws

theorem trim_eq_self_of_ends {c b : Char} {m : List Char}
    (hc : isWS c = false) (hb : isWS b = false) :
    trim (c :: (m ++ [b])) = c :: (m ++ [b]) := by
  have h1 : List.dropWhile isWS (c :: (m ++ [b])) = c :: (m ++ [b]) :=
    List.dropWhile_cons_of_neg (by simp [hc])
  rw [trim, h1, show c :: (m ++ [b]) = (c :: m) ++ [b] from rfl]
  exact List.rdropWhile_concat_neg isWS (c :: m) b (by simp [hb])

theorem trim_singleton_of_not_ws {c : Char} (hc : isWS c = false) :
    trim [c] = [c] := by
  have h1 : List.dropWhile isWS [c] = [c] := List.dropWhile_cons_of_neg (by simp [hc])
  rw [trim, h1, List.rdropWhile_singleton]
  simp [hc]

theorem trim_idem (l : List Char) : trim (trim l) = trim l := by
  rcases h : trim l with _ | ⟨c, r⟩
  · rfl
  · obtain ⟨t, _, hdec⟩ := rdropWhile_decomp isWS (List.dropWhile isWS l)
    rw [show List.rdropWhile isWS (List.dropWhile isWS l) = trim l from rfl, h] at hdec
    have hc : isWS c = false := dropWhile_head_false (by rw [hdec]; rfl)
    have hlast : isWS ((c :: r).getLast (List.cons_ne_nil _ _)) = false := by
      have hne : trim l ≠ [] := by rw [h]; exact List.cons_ne_nil _ _
      have hne' : List.rdropWhile isWS (List.dropWhile isWS l) ≠ [] := hne
      have := List.rdropWhile_last_not isWS (List.dropWhile isWS l) hne'
      simp only [show List.rdropWhile isWS (List.dropWhile isWS l) = trim l from rfl, h] at this
      simpa using this
    have h1 : List.dropWhile isWS (c :: r) = c :: r :=
      List.dropWhile_cons_of_neg (by simp [hc])
    rw [trim, h1]
    rw [List.rdropWhile_eq_self_iff]
    intro _
    simp [hlast]

/-! ### Facts about `startsDashDash` and `keepLine` -/

theorem startsDashDash_of_all_ws {l : List Char} (h : ∀ c ∈ l, isWS c = true) :
    startsDashDash l = false := by
  match l with
  | [] => rfl
  | [c] => rfl
  | c1 :: c2 :: r =>
    have h1 := h c1 (List.mem_cons_self _ _)
    simp only [startsDashDash]
    have : c1 ≠ '-' := by
      intro he
      rw [he] at h1
      exact Bool.false_ne_true h1
    simp [this]

theorem startsDashDash_rdropWhile (l : List Char) :
    startsDashDash (List.rdropWhile isWS l) = startsDashDash l := by
  obtain ⟨t, ht, hdec⟩ := rdropWhile_decomp isWS l
  rcases hr : List.rdropWhile isWS l with _ | ⟨a, y⟩
  · rw [hr] at hdec
    rw [hdec]
    exact (startsDashDash_of_all_ws (by simpa using ht)).symm
  · rcases y with _ | ⟨b, y'⟩
    · rw [hr] at hdec
      rw [hdec]
      rcases t with _ | ⟨w, t'⟩
      · rfl
      · have hw := ht w (List.mem_cons_self _ _)
        have : w ≠ '-' := by
          intro he
          rw [he] at hw
          exact Bool.false_ne_true hw
        simp [startsDashDash, this]
    · rw [hr] at hdec
      rw [hdec]
      rfl

theorem startsDashDash_trim (l : List Char) :
    startsDashDash (trim l) = startsDashDash (List.dropWhile isWS l) :=
  startsDashDash_rdropWhile _

theorem trim_eq_nil_iff_dropWhile {l : List Char} :
    trim l = [] ↔ List.dropWhile isWS l = [] := by
  constructor
  · intro h
    rw [List.dropWhile_eq_nil_iff]
    intro c hc
    exact trim_eq_nil_iff.mp h c hc
  · intro h
    rw [trim, h]
    rfl

theorem keepLine_iff {line : List Char} :
    keepLine line = true ↔
      List.dropWhile isWS line ≠ [] ∧
        startsDashDash (List.dropWhile isWS line) = false := by
  rw [keepLine]
  rw [Bool.and_eq_true, Bool.not_eq_true', Bool.not_eq_true']
  rw [startsDashDash_trim]
  constructor
  · intro ⟨h1, h2⟩
    refine ⟨?_, h1⟩
    intro hnil
    rw [trim_eq_nil_iff_dropWhile.mpr hnil] at h2
    simp at h2
  · intro ⟨h1, h2⟩
    refine ⟨h2, ?_⟩
    rcases he : trim line with _ | ⟨x, xs⟩
    · exact absurd (trim_eq_nil_iff_dropWhile.mp he) h1
    · rfl

/-! ### Facts about `List.splitOn` -/

theorem splitOn_ne_nil (sep : Char) (l : List Char) : l.splitOn sep ≠ [] :=
  List.splitOnP_ne_nil _ l

theorem splitOn_nil_eq (sep : Char) : ([] : List Char).splitOn sep = [[]] := rfl

theorem splitOn_cons (sep x : Char) (xs : List Char) :
    (x :: xs).splitOn sep =
      if x = sep then [] :: xs.splitOn sep
      else (xs.splitOn sep).modifyHead (List.cons x) := by
  simp only [List.splitOn, List.splitOnP_cons, beq_iff_eq]

theorem splitOn_eq_single {sep : Char} {l : List Char} (h : sep ∉ l) :
    l.splitOn sep = [l] := by
  apply List.splitOnP_eq_single
  intro y hy hbe
  rw [beq_iff_eq] at hbe
  exact h (hbe ▸ hy)

theorem splitOn_first {sep : Char} {t : List Char} (h : sep ∉ t) (r : List Char) :
    (t ++ sep :: r).splitOn sep = t :: r.splitOn sep := by
  apply List.splitOnP_first
  · intro y hy hbe
    rw [beq_iff_eq] at hbe
    exact h (hbe ▸ hy)
  · exact beq_self_eq_true sep

theorem intercalate_splitOn_char (sep : Char) (l : List Char) :
    List.intercalate [sep] (l.splitOn sep) = l :=
  List.intercalate_splitOn l sep

theorem splitOn_intercalate_char (sep : Char) {L : List (List Char)}
    (hx : ∀ l ∈ L, sep ∉ l) (hL : L ≠ []) :
    (List.intercalate [sep] L).splitOn sep = L :=
  List.splitOn_intercalate L sep hx hL

theorem intercalate_cons₂ (s : List Char) (a b : List Char) (L : List (List Char)) :
    List.intercalate s (a :: b :: L) = a ++ s ++ List.intercalate s (b :: L) := by
  simp [List.intercalate, List.append_assoc]

theorem mem_of_mem_splitOn {sep c : Char} :
    ∀ {l x : List Char}, x ∈ l.splitOn sep → c ∈ x → c ∈ l := by
  intro l
  induction l with
  | nil =>
    intro x hx hc
    rw [splitOn_nil_eq] at hx
    simp only [List.mem_singleton] at hx
    rw [hx] at hc
    simp at hc
  | cons d l ih =>
    intro x hx hc
    rw [splitOn_cons] at hx
    by_cases hd : d = sep
    · rw [if_pos hd] at hx
      rcases List.mem_cons.mp hx with h | h
      · rw [h] at hc; simp at hc
      · exact List.mem_cons_of_mem _ (ih h hc)
    · rw [if_neg hd] at hx
      rcases hsp : l.splitOn sep with _ | ⟨h0, t0⟩
      · exact absurd hsp (splitOn_ne_nil _ _)
      · rw [hsp] at hx
        simp only [List.modifyHead] at hx
        rcases List.mem_cons.mp hx with h | h
        · rw [h] at hc
          rcases List.mem_cons.mp hc with h' | h'
          · rw [h']; exact List.mem_cons_self _ _
          · exact List.mem_cons_of_mem _
              (ih (by rw [hsp]; exact List.mem_cons_self _ _) h')
        · exact List.mem_cons_of_mem _
            (ih (by rw [hsp]; exact List.mem_cons_of_mem _ h) hc)

theorem mem_intercalate {s c : Char} :
    ∀ {L : List (List Char)}, c ∈ List.intercalate [s] L →
      c = s ∨ ∃ x ∈ L, c ∈ x := by
  intro L
  induction L with
  | nil => intro h; simp [List.intercalate] at h
  | cons a L ih =>
    intro h
    rcases L with _ | ⟨b, L'⟩
    · right
      exact ⟨a, List.mem_cons_self _ _, by simpa [List.intercalate] using h⟩
    · rw [intercalate_cons₂] at h
      rcases List.mem_append.mp h with h1 | h2
      · rcases List.mem_append.mp h1 with ha | hs
        · right; exact ⟨a, List.mem_cons_self _ _, ha⟩
        · left; simpa using hs
      · rcases ih h2 with h' | ⟨x, hx, hcx⟩
        · left; exact h'
        · right; exact ⟨x, List.mem_cons_of_mem _ hx, hcx⟩

theorem splitOn_append (sep : Char) (a b : List Char) :
    ∃ pre l1 f2 post,
      a.splitOn sep = pre ++ [l1] ∧ b.splitOn sep = f2 :: post ∧
      (a ++ b).splitOn sep = pre ++ (l1 ++ f2) :: post := by
  induction a with
  | nil =>
    rcases hb : b.splitOn sep with _ | ⟨f2, post⟩
    · exact absurd hb (splitOn_ne_nil _ _)
    · exact ⟨[], [], f2, post, rfl, rfl, by simpa using hb⟩
  | cons c a ih =>
    obtain ⟨pre, l1, f2, post, h1, h2, h3⟩ := ih
    by_cases hc : c = sep
    · refine ⟨[] :: pre, l1, f2, post, ?_, h2, ?_⟩
      · rw [splitOn_cons, if_pos hc, h1]
        rfl
      · rw [List.cons_append, splitOn_cons, if_pos hc, h3]
        rfl
    · rcases pre with _ | ⟨p0, pre'⟩
      · refine ⟨[], c :: l1, f2, post, ?_, h2, ?_⟩
        · rw [splitOn_cons, if_neg hc, h1]
          rfl
        · rw [List.cons_append, splitOn_cons, if_neg hc, h3]
          rfl
      · refine ⟨(c :: p0) :: pre', l1, f2, post, ?_, h2, ?_⟩
        · rw [splitOn_cons, if_neg hc, h1]
          rfl
        · rw [List.cons_append, splitOn_cons, if_neg hc, h3]
          rfl

/-! ### Step lemmas for the scanner -/

theorem scanAux_nil (inS inD : Bool) (cur : List Char) (acc : List (List Char)) :
    scanAux [] inS inD cur acc =
      if (trim cur).isEmpty then acc else acc ++ [trim cur] := rfl

theorem scanAux_plain_cons {c : Char} (h1 : c ≠ '\'') (h2 : c ≠ '"') (h3 : c ≠ ';')
    (rest : List Char) (inS inD : Bool) (cur : List Char) (acc : List (List Char)) :
    scanAux (c :: rest) inS inD cur acc = scanAux rest inS inD (cur ++ [c]) acc := by
  rw [scanAux.eq_def]
  simp [h1, h2, h3]

theorem scanAux_plain_append :
    ∀ (p : List Char), (∀ c ∈ p, c ≠ '\'' ∧ c ≠ '"' ∧ c ≠ ';') →
      ∀ (rest : List Char) (inS inD : Bool) (cur : List Char) (acc : List (List Char)),
        scanAux (p ++ rest) inS inD cur acc = scanAux rest inS inD (cur ++ p) acc := by
  intro p
  induction p with
  | nil =>
    intro _ rest inS inD cur acc
    simp
  | cons c p ih =>
    intro hp rest inS inD cur acc
    obtain ⟨hc1, hc2, hc3⟩ := hp c (List.mem_cons_self _ _)
    rw [List.cons_append, scanAux_plain_cons hc1 hc2 hc3]
    rw [ih (fun d hd => hp d (List.mem_cons_of_mem _ hd)) rest inS inD (cur ++ [c]) acc]
    rw [List.append_assoc]
    rfl

theorem scanAux_semi (rest : List Char) (cur : List Char) (acc : List (List Char)) :
    scanAux (';' :: rest) false false cur acc =
      scanAux rest false false []
        (if (trim cur).isEmpty then acc else acc ++ [trim cur]) := by
  rw [scanAux.eq_def]
  simp

theorem scanAux_semi_quoted {inS inD : Bool} (h : (inS || inD) = true)
    (rest cur : List Char) (acc : List (List Char)) :
    scanAux (';' :: rest) inS inD cur acc = scanAux rest inS inD (cur ++ [';']) acc := by
  rw [scanAux.eq_def]
  cases inS <;> cases inD <;> simp_all

theorem scanAux_squote_doubled (rest cur : List Char) (inS : Bool)
    (acc : List (List Char)) :
    scanAux ('\'' :: '\'' :: rest) inS false cur acc =
      scanAux rest inS false (cur ++ ['\'', '\'']) acc := by
  rw [scanAux.eq_def]
  simp

theorem scanAux_squote_last (inS : Bool) (cur : List Char) (acc : List (List Char)) :
    scanAux ['\''] inS false cur acc = scanAux [] (!inS) false (cur ++ ['\'']) acc := rfl

theorem scanAux_squote_toggle (inS : Bool) {c : Char} (hc : c ≠ '\'')
    (r cur : List Char) (acc : List (List Char)) :
    scanAux ('\'' :: c :: r) inS false cur acc =
      scanAux (c :: r) (!inS) false (cur ++ ['\'']) acc := by
  rw [scanAux.eq_def]
  simp [hc]

theorem scanAux_inS_cons {c : Char} (hc : c ≠ '\'') (rest cur : List Char)
    (acc : List (List Char)) :
    scanAux (c :: rest) true false cur acc =
      scanAux rest true false (cur ++ [c]) acc := by
  rw [scanAux.eq_def]
  simp [hc]

theorem scanAux_inS_append :
    ∀ (w : List Char), (∀ c ∈ w, c ≠ '\'') →
      ∀ (rest cur : List Char) (acc : List (List Char)),
        scanAux (w ++ rest) true false cur acc =
          scanAux rest true false (cur ++ w) acc := by
  intro w
  induction w with
  | nil =>
    intro _ rest cur acc
    simp
  | cons c p ih =>
    intro hw rest cur acc
    rw [List.cons_append, scanAux_inS_cons (hw c (List.mem_cons_self _ _))]
    rw [ih (fun d hd => hw d (List.mem_cons_of_mem _ hd)) rest (cur ++ [c]) acc]
    rw [List.append_assoc]
    rfl

theorem scanAux_quoted_cons {c : Char} (hc1 : c ≠ '\'') (hc2 : c ≠ '"')
    {inS inD : Bool} (hq : (inS || inD) = true) (rest cur : List Char)
    (acc : List (List Char)) :
    scanAux (c :: rest) inS inD cur acc = scanAux rest inS inD (cur ++ [c]) acc := by
  rw [scanAux.eq_def]
  cases inS <;> cases inD <;> simp_all [hc1, hc2]

theorem scanAux_quoted_run :
    ∀ (rest : List Char), (∀ c ∈ rest, c ≠ '\'' ∧ c ≠ '"') →
      ∀ {inS inD : Bool}, (inS || inD) = true →
        ∀ (cur : List Char) (acc : List (List Char)),
          scanAux rest inS inD cur acc =
            acc ++ (if (trim (cur ++ rest)).isEmpty then [] else [trim (cur ++ rest)]) := by
  intro rest
  induction rest with
  | nil =>
    intro _ inS inD _ cur acc
    rw [scanAux_nil]
    cases h : (trim cur).isEmpty <;> simp [h]
  | cons c r ih =>
    intro hr inS inD hq cur acc
    obtain ⟨hc1, hc2⟩ := hr c (List.mem_cons_self _ _)
    rw [scanAux_quoted_cons hc1 hc2 hq]
    rw [ih (fun d hd => hr d (List.mem_cons_of_mem _ hd)) hq (cur ++ [c]) acc]
    rw [List.append_assoc]
    rfl

theorem scanAux_no_quote :
    ∀ (l : List Char), (∀ c ∈ l, c ≠ '\'' ∧ c ≠ '"') →
      ∀ (cur : List Char) (acc : List (List Char)),
        scanAux l false false cur acc = acc ++ tailSplit cur l := by
  intro l
  induction l with
  | nil =>
    intro _ cur acc
    rw [scanAux_nil]
    cases h : (trim cur).isEmpty <;> simp [tailSplit, h]
  | cons c r ih =>
    intro hl cur acc
    obtain ⟨hc1, hc2⟩ := hl c (List.mem_cons_self _ _)
    have ihr := ih (fun d hd => hl d (List.mem_cons_of_mem _ hd))
    by_cases hc : c = ';'
    · subst hc
      rw [scanAux_semi, ihr]
      rcases hsp : r.splitOn ';' with _ | ⟨h0, t0⟩
      · exact absurd hsp (splitOn_ne_nil _ _)
      · have hcut : (';' :: r).splitOn ';' = [] :: h0 :: t0 := by
          rw [splitOn_cons, if_pos rfl, hsp]
        cases h : (trim cur).isEmpty <;>
          simp [tailSplit, hcut, hsp, h, List.filter, List.append_assoc]
    · rw [scanAux_plain_cons hc1 hc2 hc, ihr]
      rcases hsp : r.splitOn ';' with _ | ⟨h0, t0⟩
      · exact absurd hsp (splitOn_ne_nil _ _)
      · have hcut : (c :: r).splitOn ';' = (c :: h0) :: t0 := by
          rw [splitOn_cons, if_neg hc, hsp]
          rfl
        simp only [tailSplit, hcut, hsp]
        rw [show cur ++ c :: h0 = (cur ++ [c]) ++ h0 by simp]

theorem splitSqlStatements_eq_simple_of_no_quote {s : List Char}
    (h : ∀ c ∈ s, c ≠ '\'' ∧ c ≠ '"') :
    splitSqlStatements s = splitSqlSimple s := by
  have hclean : ∀ c ∈ cleanSql s, c ≠ '\'' ∧ c ≠ '"' := by
    intro c hc
    rcases mem_intercalate hc with rfl | ⟨x, hx, hcx⟩
    · exact ⟨by decide, by decide⟩
    · have hxl : x ∈ s.splitOn '\n' := List.mem_of_mem_filter hx
      exact h c (mem_of_mem_splitOn hxl hcx)
  rw [splitSqlStatements, scanAux_no_quote _ hclean, splitSqlSimple]
  rcases hsp : (cleanSql s).splitOn ';' with _ | ⟨h0, t0⟩
  · exact absurd hsp (splitOn_ne_nil _ _)
  · simp [tailSplit, hsp]

/-! ### Every emitted statement is trimmed and non-empty -/

theorem scanAux_mem_inv :
    ∀ (l : List Char) (inS inD : Bool) (cur : List Char) (acc : List (List Char)),
      (∀ t ∈ acc, trim t = t ∧ t ≠ []) →
      ∀ t ∈ scanAux l inS inD cur acc, trim t = t ∧ t ≠ [] := by
  intro l inS inD cur acc
  induction l, inS, inD, cur, acc using scanAux.induct with
  | case1 inS inD cur acc hemp =>
    intro hacc t ht
    rw [scanAux, if_pos hemp] at ht
    exact hacc t ht
  | case2 inS inD cur acc hemp =>
    intro hacc t ht
    rw [scanAux, if_neg hemp] at ht
    rcases List.mem_append.mp ht with h | h
    · exact hacc t h
    · rw [List.mem_singleton] at h
      subst h
      refine ⟨trim_idem cur, ?_⟩
      intro he
      rw [List.isEmpty_iff] at hemp
      exact hemp he
  | case3 c inS inD cur acc hcond rest2 ih =>
    intro hacc t ht
    rw [scanAux.eq_def] at ht
    simp only [hcond, if_pos] at ht
    exact ih hacc t ht
  | case4 c inS inD cur acc hcond r hnot ih =>
    intro hacc t ht
    rw [scanAux.eq_def] at ht
    simp only [hcond, if_pos] at ht
    rcases r with _ | ⟨d, r'⟩
    · exact ih hacc t ht
    · exact ih hacc t ht
  | case5 c rest inS inD cur acc h1 h2 ih =>
    intro hacc t ht
    rw [scanAux.eq_def] at ht
    simp only [h1, h2, if_pos, if_neg, Bool.not_eq_true] at ht
    exact ih hacc t ht
  | case6 c rest inS inD cur acc h1 h2 h3 ih =>
    intro hacc t ht
    rw [scanAux.eq_def] at ht
    simp only [h1, h2, h3, if_pos, if_neg, Bool.not_eq_true] at ht
    apply ih ?_ t ht
    intro u hu
    by_cases hemp : (trim cur).isEmpty = true
    · rw [if_pos hemp] at hu
      exact hacc u hu
    · rw [if_neg hemp] at hu
      rcases List.mem_append.mp hu with h | h
      · exact hacc u h
      · rw [List.mem_singleton] at h
        subst h
        refine ⟨trim_idem cur, ?_⟩
        intro he
        rw [List.isEmpty_iff] at hemp
        exact hemp he
  | case7 c rest inS inD cur acc h1 h2 h3 ih =>
    intro hacc t ht
    rw [scanAux.eq_def] at ht
    simp only [h1, h2, h3, if_pos, if_neg, Bool.not_eq_true] at ht
    exact ih hacc t ht

theorem splitSqlStatements_mem_inv {s t : List Char}
    (ht : t ∈ splitSqlStatements s) : trim t = t ∧ t ≠ [] := by
  exact scanAux_mem_inv _ _ _ _ _ (by intro u hu; simp at hu) t ht

/-! ### The line filter still accepts a kept line glued with `';' :: x` -/

theorem keepLine_glue {a : List Char} (ha : keepLine a = true) (x : List Char) :
    keepLine (a ++ ';' :: x) = true := by
  obtain ⟨hne, hsd⟩ := keepLine_iff.mp ha
  rcases hd : List.dropWhile isWS a with _ | ⟨c, r⟩
  · exact absurd hd hne
  · obtain ⟨t, ht, hdec⟩ := dropWhile_decomp isWS a
    rw [hd] at hdec
    have hcws : isWS c = false := dropWhile_head_false hd
    have hdw : List.dropWhile isWS (a ++ ';' :: x) = c :: (r ++ ';' :: x) := by
      rw [hdec, List.append_assoc, List.dropWhile_append_of_pos ht]
      rw [List.cons_append, List.dropWhile_cons_of_neg (by simp [hcws])]
    rw [keepLine_iff]
    rw [hd] at hsd
    constructor
    · rw [hdw]
      exact List.cons_ne_nil _ _
    · rw [hdw]
      rcases r with _ | ⟨d, r'⟩
      · simp [startsDashDash]
      · simpa [startsDashDash] using hsd

/-! ### Round trip: splitting a `;`-joined list of statements -/

theorem joinStmts_eq_intercalate :
    ∀ (t : List Char) (ts : List (List Char)),
      List.intercalate [';'] (t :: ts) ++ [';'] = joinStmts (t :: ts) := by
  intro t ts
  induction ts generalizing t with
  | nil => simp [joinStmts, List.intercalate]
  | cons b ts ih =>
    rw [intercalate_cons₂]
    rw [show joinStmts (t :: b :: ts) = t ++ ';' :: joinStmts (b :: ts) from rfl]
    rw [← ih b]
    simp

theorem mem_joinStmts {c : Char} :
    ∀ {ts : List (List Char)}, c ∈ joinStmts ts → c = ';' ∨ ∃ t ∈ ts, c ∈ t := by
  intro ts
  induction ts with
  | nil => intro h; simp [joinStmts] at h
  | cons t ts ih =>
    intro h
    rw [show joinStmts (t :: ts) = t ++ ';' :: joinStmts ts from rfl] at h
    rcases List.mem_append.mp h with h1 | h2
    · right; exact ⟨t, List.mem_cons_self _ _, h1⟩
    · rcases List.mem_cons.mp h2 with rfl | h3
      · left; rfl
      · rcases ih h3 with h' | ⟨u, hu, hcu⟩
        · left; exact h'
        · right; exact ⟨u, List.mem_cons_of_mem _ hu, hcu⟩

theorem joinStmts_lines_keep :
    ∀ (ts : List (List Char)),
      (∀ t ∈ ts, ∀ l ∈ t.splitOn '\n', keepLine l = true) →
      ts ≠ [] →
      ∀ line ∈ (joinStmts ts).splitOn '\n', keepLine line = true := by
  intro ts
  induction ts with
  | nil => intro _ h; exact absurd rfl h
  | cons t ts ih =>
    intro hts _ line hline
    obtain ⟨pre, l1, f2, post, h1, h2, h3⟩ := splitOn_append '\n' t (';' :: joinStmts ts)
    rw [show joinStmts (t :: ts) = t ++ ';' :: joinStmts ts from rfl, h3] at hline
    have hkt : ∀ l ∈ t.splitOn '\n', keepLine l = true := hts t (List.mem_cons_self _ _)
    have hl1 : keepLine l1 = true :=
      hkt l1 (by rw [h1]; exact List.mem_append_right _ (List.mem_singleton.mpr rfl))
    rcases hJ : (joinStmts ts).splitOn '\n' with _ | ⟨h0, t0⟩
    · exact absurd hJ (splitOn_ne_nil _ _)
    have hsem : (';' :: joinStmts ts).splitOn '\n' = (';' :: h0) :: t0 := by
      rw [splitOn_cons, if_neg (by decide), hJ]
      rfl
    rw [hsem] at h2
    injection h2 with h2a h2b
    rcases List.mem_append.mp hline with hpre | hrest
    · exact hkt line (by rw [h1]; exact List.mem_append_left _ hpre)
    · rcases List.mem_cons.mp hrest with rfl | hpost
      · rw [← h2a]
        exact keepLine_glue hl1 h0
      · rcases ts with _ | ⟨b, ts'⟩
        · rw [show joinStmts ([] : List (List Char)) = [] from rfl, splitOn_nil_eq] at hJ
          injection hJ with hh htl
          rw [← h2b, ← htl] at hpost
          simp at hpost
        · apply ih (fun u hu => hts u (List.mem_cons_of_mem _ hu)) (List.cons_ne_nil _ _) line
          rw [hJ]
          rw [← h2b] at hpost
          exact List.mem_cons_of_mem _ hpost

theorem splitOn_semi_joinStmts :
    ∀ (ts : List (List Char)), (∀ t ∈ ts, ';' ∉ t) →
      (joinStmts ts).splitOn ';' = ts ++ [[]] := by
  intro ts
  induction ts with
  | nil => intro _; rfl
  | cons t ts ih =>
    intro h
    rw [show joinStmts (t :: ts) = t ++ ';' :: joinStmts ts from rfl]
    rw [splitOn_first (h t (List.mem_cons_self _ _))]
    rw [ih (fun u hu => h u (List.mem_cons_of_mem _ hu))]
    rfl

theorem filter_map_trim_concat :
    ∀ {ts : List (List Char)}, (∀ t ∈ ts, trim t = t ∧ t ≠ []) →
      (((ts ++ [[]]).map trim).filter (fun s => !s.isEmpty)) = ts := by
  intro ts
  induction ts with
  | nil => intro _; rfl
  | cons t ts ih =>
    intro htr
    obtain ⟨h1, h2⟩ := htr t (List.mem_cons_self _ _)
    have hne : (!t.isEmpty) = true := by
      rcases t with _ | _
      · exact absurd rfl h2
      · rfl
    rw [List.cons_append, List.map_cons, h1, List.filter_cons, if_pos hne]
    rw [ih (fun u hu => htr u (List.mem_cons_of_mem _ hu))]

theorem split_joinStmts (ts : List (List Char))
    (h : ∀ t ∈ ts, trim t = t ∧ t ≠ [] ∧ ';' ∉ t ∧ '\'' ∉ t ∧ '"' ∉ t ∧
        ∀ l ∈ t.splitOn '\n', keepLine l = true) :
    splitSqlStatements (List.intercalate [';'] ts ++ [';']) = ts := by
  rcases ts with _ | ⟨t, ts'⟩
  · decide
  · rw [joinStmts_eq_intercalate]
    have hlines := joinStmts_lines_keep (t :: ts')
      (fun u hu => ((h u hu).2.2.2.2.2)) (List.cons_ne_nil _ _)
    have hclean : cleanSql (joinStmts (t :: ts')) = joinStmts (t :: ts') := by
      rw [cleanSql, List.filter_eq_self.mpr hlines, intercalate_splitOn_char]
    have hnq : ∀ c ∈ joinStmts (t :: ts'), c ≠ '\'' ∧ c ≠ '"' := by
      intro c hc
      rcases mem_joinStmts hc with rfl | ⟨u, hu, hcu⟩
      · exact ⟨by decide, by decide⟩
      · have h5 := (h u hu).2.2.2.1
        have h6 := (h u hu).2.2.2.2.1
        exact ⟨fun he => h5 (he ▸ hcu), fun he => h6 (he ▸ hcu)⟩
    rw [splitSqlStatements, hclean, scanAux_no_quote _ hnq]
    have hsp : (joinStmts (t :: ts')).splitOn ';' = (t :: ts') ++ [[]] :=
      splitOn_semi_joinStmts _ (fun u hu => (h u hu).2.2.1)
    simp only [tailSplit, hsp]
    exact filter_map_trim_concat (fun u hu => ⟨(h u hu).1, (h u hu).2.1⟩)

/-! ### Round trip for statements joined with the two-character separator `;\n` -/

theorem joinSep_eq_intercalate :
    ∀ (ts : List (List Char)), joinSep ts = List.intercalate [';', '\n'] ts := by
  intro ts
  induction ts with
  | nil => rfl
  | cons t ts ih =>
    rcases ts with _ | ⟨b, ts'⟩
    · simp [joinSep, List.intercalate]
    · rw [show joinSep (t :: b :: ts') = t ++ ';' :: '\n' :: joinSep (b :: ts') from rfl]
      rw [intercalate_cons₂, ← ih]
      simp

theorem mem_joinSep {c : Char} :
    ∀ {ts : List (List Char)}, c ∈ joinSep ts →
      c = ';' ∨ c = '\n' ∨ ∃ t ∈ ts, c ∈ t := by
  intro ts
  induction ts with
  | nil => intro h; simp [joinSep] at h
  | cons t ts ih =>
    intro h
    rcases ts with _ | ⟨b, ts'⟩
    · right; right; exact ⟨t, List.mem_cons_self _ _, h⟩
    · rw [show joinSep (t :: b :: ts') = t ++ ';' :: '\n' :: joinSep (b :: ts') from rfl] at h
      rcases List.mem_append.mp h with h1 | h2
      · right; right; exact ⟨t, List.mem_cons_self _ _, h1⟩
      · rcases List.mem_cons.mp h2 with rfl | h3
        · left; rfl
        · rcases List.mem_cons.mp h3 with rfl | h4
          · right; left; rfl
          · rcases ih h4 with h' | h' | ⟨u, hu, hcu⟩
            · left; exact h'
            · right; left; exact h'
            · right; right; exact ⟨u, List.mem_cons_of_mem _ hu, hcu⟩

theorem joinSep_lines_keep :
    ∀ (ts : List (List Char)),
      (∀ t ∈ ts, ∀ l ∈ t.splitOn '\n', keepLine l = true) →
      ts ≠ [] →
      ∀ line ∈ (joinSep ts).splitOn '\n', keepLine line = true := by
  intro ts
  induction ts with
  | nil => intro _ h; exact absurd rfl h
  | cons t ts ih =>
    intro hts _ line hline
    rcases ts with _ | ⟨b, ts'⟩
    · exact hts t (List.mem_cons_self _ _) line hline
    · obtain ⟨pre, l1, f2, post, h1, h2, h3⟩ :=
        splitOn_append '\n' t (';' :: '\n' :: joinSep (b :: ts'))
      rw [show joinSep (t :: b :: ts') = t ++ ';' :: '\n' :: joinSep (b :: ts') from rfl,
        h3] at hline
      have hkt := hts t (List.mem_cons_self _ _)
      have hl1 : keepLine l1 = true :=
        hkt l1 (by rw [h1]; exact List.mem_append_right _ (List.mem_singleton.mpr rfl))
      have hsem : (';' :: '\n' :: joinSep (b :: ts')).splitOn '\n' =
          [';'] :: (joinSep (b :: ts')).splitOn '\n' := by
        rw [splitOn_cons, if_neg (by decide), splitOn_cons, if_pos rfl]
        rfl
      rw [hsem] at h2
      injection h2 with h2a h2b
      rcases List.mem_append.mp hline with hpre | hrest
      · exact hkt line (by rw [h1]; exact List.mem_append_left _ hpre)
      · rcases List.mem_cons.mp hrest with rfl | hpost
        · rw [← h2a]
          exact keepLine_glue hl1 []
        · apply ih (fun u hu => hts u (List.mem_cons_of_mem _ hu))
            (List.cons_ne_nil _ _) line
          rw [← h2b] at hpost
          exact hpost

theorem splitOn_concat_sep (sep : Char) :
    ∀ (x : List Char), (x ++ [sep]).splitOn sep = x.splitOn sep ++ [[]] := by
  intro x
  induction x with
  | nil =>
    rw [List.nil_append, splitOn_cons, if_pos rfl]
    rfl
  | cons c x ih =>
    by_cases hc : c = sep
    · rw [List.cons_append, splitOn_cons, if_pos hc, ih, splitOn_cons, if_pos hc]
      rfl
    · rw [List.cons_append, splitOn_cons, if_neg hc, ih, splitOn_cons, if_neg hc]
      rcases hx : x.splitOn sep with _ | ⟨h0, t0⟩
      · exact absurd hx (splitOn_ne_nil _ _)
      · rfl

theorem joinSep_split_result :
    ∀ (ts : List (List Char)),
      (∀ t ∈ ts, trim t = t ∧ t ≠ [] ∧ ';' ∉ t) → ts ≠ [] →
      (((joinSep ts).splitOn ';').map trim).filter (fun s => !s.isEmpty) = ts := by
  intro ts
  induction ts with
  | nil => intro _ h; exact absurd rfl h
  | cons t ts ih =>
    intro h _
    obtain ⟨h1, h2, h3⟩ := h t (List.mem_cons_self _ _)
    have hne : (!t.isEmpty) = true := by
      rcases t with _ | _
      · exact absurd rfl h2
      · rfl
    rcases ts with _ | ⟨b, ts'⟩
    · rw [show joinSep [t] = t from rfl, splitOn_eq_single h3]
      rw [show ([t].map trim) = [trim t] from rfl, h1, List.filter_cons, if_pos hne]
      rfl
    · rw [show joinSep (t :: b :: ts') = t ++ ';' :: ('\n' :: joinSep (b :: ts')) from rfl]
      rw [splitOn_first h3, splitOn_cons, if_neg (by decide)]
      rcases hx : (joinSep (b :: ts')).splitOn ';' with _ | ⟨h0, t0⟩
      · exact absurd hx (splitOn_ne_nil _ _)
      · have hih := ih (fun u hu => h u (List.mem_cons_of_mem _ hu)) (List.cons_ne_nil _ _)
        rw [hx, List.map_cons] at hih
        rw [show List.modifyHead (List.cons '\n') (h0 :: t0) = ('\n' :: h0) :: t0 from rfl]
        rw [List.map_cons, List.map_cons, h1, trim_cons_of_ws (by decide)]
        rw [List.filter_cons, if_pos hne]
        rw [hih]

/-! ### A fuel-bounded scanner -/

theorem scanFuel_enough :
    ∀ (l : List Char) (inS inD : Bool) (cur : List Char) (acc : List (List Char))
      (k : Nat),
      scanFuel (k + l.length) l inS inD cur acc = some (scanAux l inS inD cur acc) := by
  intro l inS inD cur acc
  induction l, inS, inD, cur, acc using scanAux.induct with
  | case1 inS inD cur acc hemp =>
    intro k
    rw [scanAux, if_pos hemp, scanFuel.eq_def]
    simp [hemp]
  | case2 inS inD cur acc hemp =>
    intro k
    rw [scanAux, if_neg hemp, scanFuel.eq_def]
    simp [hemp]
  | case3 c inS inD cur acc hcond rest2 ih =>
    intro k
    rw [scanAux.eq_def]
    simp only [hcond, if_pos]
    rw [show k + List.length (c :: '\'' :: rest2) = ((k + 1) + List.length rest2) + 1
      from by simp; omega]
    rw [scanFuel.eq_def]
    simp only [hcond, if_pos]
    exact ih (k + 1)
  | case4 c inS inD cur acc hcond r hnot ih =>
    intro k
    rw [scanAux.eq_def]
    simp only [hcond, if_pos]
    rw [show k + List.length (c :: r) = (k + List.length r) + 1 from by simp; omega]
    rw [scanFuel.eq_def]
    simp only [hcond, if_pos]
    rcases r with _ | ⟨d, r'⟩
    · exact ih k
    · exact ih k
  | case5 c rest inS inD cur acc h1 h2 ih =>
    intro k
    rw [scanAux.eq_def]
    simp only [h1, h2, if_pos, if_neg, Bool.not_eq_true]
    rw [show k + List.length (c :: rest) = (k + List.length rest) + 1 from by simp; omega]
    rw [scanFuel.eq_def]
    simp only [h1, h2, if_pos, if_neg, Bool.not_eq_true]
    exact ih k
  | case6 c rest inS inD cur acc h1 h2 h3 ih =>
    intro k
    rw [scanAux.eq_def]
    simp only [h1, h2, h3, if_pos, if_neg, Bool.not_eq_true]
    rw [show k + List.length (c :: rest) = (k + List.length rest) + 1 from by simp; omega]
    rw [scanFuel.eq_def]
    simp only [h1, h2, h3, if_pos, if_neg, Bool.not_eq_true]
    exact ih k
  | case7 c rest inS inD cur acc h1 h2 h3 ih =>
    intro k
    rw [scanAux.eq_def]
    simp only [h1, h2, h3, if_pos, if_neg, Bool.not_eq_true]
    rw [show k + List.length (c :: rest) = (k + List.length rest) + 1 from by simp; omega]
    rw [scanFuel.eq_def]
    simp only [h1, h2, h3, if_pos, if_neg, Bool.not_eq_true]
    exact ih k

/-! ### Scanning one statement whose literal is single-quoted -/

theorem scan_quoted_stmt :
    ∀ (w : List Char), (∀ c ∈ w, c ≠ '\'') → ∀ (cur : List Char) (acc : List (List Char)),
      scanAux ('\'' :: w ++ ['\'', ')', ';']) false false cur acc =
        acc ++ (if (trim (cur ++ '\'' :: w ++ ['\'', ')'])).isEmpty then []
                else [trim (cur ++ '\'' :: w ++ ['\'', ')'])]) := by
  intro w hw cur acc
  rcases w with _ | ⟨c0, w'⟩
  · rw [show ('\'' :: [] ++ ['\'', ')', ';'] : List Char) = '\'' :: '\'' :: [')', ';']
      from rfl]
    rw [scanAux_squote_doubled]
    rw [scanAux_plain_cons (by decide) (by decide) (by decide)]
    rw [scanAux_semi, scanAux_nil]
    rw [if_pos (by rw [trim_nil]; rfl)]
    cases h : (trim ((cur ++ ['\'', '\'']) ++ [')'])).isEmpty <;>
      simp_all [List.append_assoc]
  · rw [show ('\'' :: (c0 :: w') ++ ['\'', ')', ';'] : List Char) =
      '\'' :: c0 :: (w' ++ ['\'', ')', ';']) from by simp]
    rw [scanAux_squote_toggle false (hw c0 (List.mem_cons_self _ _))]
    simp only [Bool.not_false]
    rw [show (c0 :: (w' ++ ['\'', ')', ';']) : List Char) =
      (c0 :: w') ++ ['\'', ')', ';'] from by simp]
    rw [scanAux_inS_append (c0 :: w') hw]
    rw [show (['\'', ')', ';'] : List Char) = '\'' :: ')' :: [';'] from rfl]
    rw [scanAux_squote_toggle true (by decide)]
    simp only [Bool.not_true]
    rw [scanAux_plain_cons (by decide) (by decide) (by decide)]
    rw [scanAux_semi, scanAux_nil]
    rw [if_pos (by rw [trim_nil]; rfl)]
    cases h : (trim ((((cur ++ ['\'']) ++ (c0 :: w')) ++ ['\'']) ++ [')'])).isEmpty <;>
      simp_all [List.append_assoc]

theorem scanAux_dquote_toggle (inD : Bool) (rest cur : List Char)
    (acc : List (List Char)) :
    scanAux ('"' :: rest) false inD cur acc =
      scanAux rest false (!inD) (cur ++ ['"']) acc := by
  rw [scanAux.eq_def]
  simp

theorem scanAux_inD_cons {c : Char} (hc : c ≠ '"') (rest cur : List Char)
    (acc : List (List Char)) :
    scanAux (c :: rest) false true cur acc =
      scanAux rest false true (cur ++ [c]) acc := by
  rw [scanAux.eq_def]
  simp [hc]

theorem scanAux_inD_append :
    ∀ (w : List Char), (∀ c ∈ w, c ≠ '"') →
      ∀ (rest cur : List Char) (acc : List (List Char)),
        scanAux (w ++ rest) false true cur acc =
          scanAux rest false true (cur ++ w) acc := by
  intro w
  induction w with
  | nil =>
    intro _ rest cur acc
    simp
  | cons c p ih =>
    intro hw rest cur acc
    rw [List.cons_append, scanAux_inD_cons (hw c (List.mem_cons_self _ _))]
    rw [ih (fun d hd => hw d (List.mem_cons_of_mem _ hd)) rest (cur ++ [c]) acc]
    rw [List.append_assoc]
    rfl

theorem scan_dquoted_stmt :
    ∀ (w : List Char), (∀ c ∈ w, c ≠ '"') → ∀ (cur : List Char) (acc : List (List Char)),
      scanAux ('"' :: w ++ ['"', ')', ';']) false false cur acc =
        acc ++ (if (trim (cur ++ '"' :: w ++ ['"', ')'])).isEmpty then []
                else [trim (cur ++ '"' :: w ++ ['"', ')'])]) := by
  intro w hw cur acc
  rw [show ('"' :: w ++ ['"', ')', ';'] : List Char) = '"' :: (w ++ ['"', ')', ';'])
    from rfl]
  rw [scanAux_dquote_toggle]
  simp only [Bool.not_false]
  rw [scanAux_inD_append w hw]
  rw [show (['"', ')', ';'] : List Char) = '"' :: [')', ';'] from rfl]
  rw [scanAux_dquote_toggle]
  simp only [Bool.not_true]
  rw [scanAux_plain_cons (by decide) (by decide) (by decide)]
  rw [scanAux_semi, scanAux_nil]
  rw [if_pos (by rw [trim_nil]; rfl)]
  cases h : (trim (((cur ++ ['"']) ++ w) ++ ['"'] ++ [')'])).isEmpty <;>
    simp_all [List.append_assoc]

/-! ### A single kept line passes through `cleanSql` unchanged -/

theorem intercalate_singleton (s x : List Char) : List.intercalate s [x] = x := by
  simp [List.intercalate]

theorem cleanSql_single_line {input : List Char} (hnl : '\n' ∉ input)
    (hk : keepLine input = true) : cleanSql input = input := by
  rw [cleanSql, splitOn_eq_single hnl, List.filter_cons, if_pos hk]
  rw [List.filter_nil, intercalate_singleton]

/-! ### Full-pipeline templates: one statement with a quoted literal -/

theorem split_squoted_template (pre : List Char) (c0 : Char) (pr : List Char)
    (hpre0 : pre = c0 :: pr) (hc0 : isWS c0 = false) (hsd : startsDashDash pre = false)
    (hpre : ∀ c ∈ pre, c ≠ '\'' ∧ c ≠ '"' ∧ c ≠ ';' ∧ c ≠ '\n')
    (w : List Char) (hw : ∀ c ∈ w, c ≠ '\'' ∧ c ≠ '\n') :
    splitSqlStatements (pre ++ '\'' :: w ++ ['\'', ')', ';']) =
      [pre ++ '\'' :: w ++ ['\'', ')']] := by
  have hnl : '\n' ∉ pre ++ '\'' :: w ++ ['\'', ')', ';'] := by
    intro hm
    rcases List.mem_append.mp hm with h | h
    · rcases List.mem_append.mp h with h | h
      · exact (hpre _ h).2.2.2 rfl
      · rcases List.mem_cons.mp h with h | h
        · exact absurd h (by decide)
        · exact (hw _ h).2 rfl
    · exact absurd h (by decide)
  have hshape : pre ++ '\'' :: w ++ ['\'', ')', ';'] =
      c0 :: ((pr ++ '\'' :: w ++ ['\'', ')']) ++ [';']) := by
    rw [hpre0]
    simp
  have htrim_in : trim (pre ++ '\'' :: w ++ ['\'', ')', ';']) =
      pre ++ '\'' :: w ++ ['\'', ')', ';'] := by
    rw [hshape]
    exact trim_eq_self_of_ends hc0 (by decide)
  have hkeep : keepLine (pre ++ '\'' :: w ++ ['\'', ')', ';']) = true := by
    rw [keepLine, htrim_in]
    have hsd2 : startsDashDash (pre ++ '\'' :: w ++ ['\'', ')', ';']) = false := by
      rcases pr with _ | ⟨c1, pr'⟩
      · rw [hpre0]
        simp [startsDashDash]
      · rw [hpre0]
        rw [hpre0] at hsd
        simpa [startsDashDash] using hsd
    rw [hsd2, hshape]
    rfl
  rw [splitSqlStatements, cleanSql_single_line hnl hkeep]
  rw [show pre ++ '\'' :: w ++ ['\'', ')', ';'] = pre ++ ('\'' :: w ++ ['\'', ')', ';'])
    from by rw [List.append_assoc]]
  rw [scanAux_plain_append pre
    (fun c hc => ⟨(hpre c hc).1, (hpre c hc).2.1, (hpre c hc).2.2.1⟩)]
  rw [scan_quoted_stmt w (fun c hc => (hw c hc).1)]
  have htrim_out : trim (pre ++ '\'' :: w ++ ['\'', ')']) =
      pre ++ '\'' :: w ++ ['\'', ')'] := by
    rw [show pre ++ '\'' :: w ++ ['\'', ')'] =
      c0 :: ((pr ++ '\'' :: w ++ ['\'']) ++ [')']) from by rw [hpre0]; simp]
    exact trim_eq_self_of_ends hc0 (by decide)
  simp only [List.nil_append]
  rw [htrim_out, hpre0]
  simp

theorem split_dquoted_template (pre : List Char) (c0 : Char) (pr : List Char)
    (hpre0 : pre = c0 :: pr) (hc0 : isWS c0 = false) (hsd : startsDashDash pre = false)
    (hpre : ∀ c ∈ pre, c ≠ '\'' ∧ c ≠ '"' ∧ c ≠ ';' ∧ c ≠ '\n')
    (w : List Char) (hw : ∀ c ∈ w, c ≠ '"' ∧ c ≠ '\n') :
    splitSqlStatements (pre ++ '"' :: w ++ ['"', ')', ';']) =
      [pre ++ '"' :: w ++ ['"', ')']] := by
  have hnl : '\n' ∉ pre ++ '"' :: w ++ ['"', ')', ';'] := by
    intro hm
    rcases List.mem_append.mp hm with h | h
    · rcases List.mem_append.mp h with h | h
      · exact (hpre _ h).2.2.2 rfl
      · rcases List.mem_cons.mp h with h | h
        · exact absurd h (by decide)
        · exact (hw _ h).2 rfl
    · exact absurd h (by decide)
  have hshape : pre ++ '"' :: w ++ ['"', ')', ';'] =
      c0 :: ((pr ++ '"' :: w ++ ['"', ')']) ++ [';']) := by
    rw [hpre0]
    simp
  have htrim_in : trim (pre ++ '"' :: w ++ ['"', ')', ';']) =
      pre ++ '"' :: w ++ ['"', ')', ';'] := by
    rw [hshape]
    exact trim_eq_self_of_ends hc0 (by decide)
  have hkeep : keepLine (pre ++ '"' :: w ++ ['"', ')', ';']) = true := by
    rw [keepLine, htrim_in]
    have hsd2 : startsDashDash (pre ++ '"' :: w ++ ['"', ')', ';']) = false := by
      rcases pr with _ | ⟨c1, pr'⟩
      · rw [hpre0]
        simp [startsDashDash]
      · rw [hpre0]
        rw [hpre0] at hsd
        simpa [startsDashDash] using hsd
    rw [hsd2, hshape]
    rfl
  rw [splitSqlStatements, cleanSql_single_line hnl hkeep]
  rw [show pre ++ '"' :: w ++ ['"', ')', ';'] = pre ++ ('"' :: w ++ ['"', ')', ';'])
    from by rw [List.append_assoc]]
  rw [scanAux_plain_append pre
    (fun c hc => ⟨(hpre c hc).1, (hpre c hc).2.1, (hpre c hc).2.2.1⟩)]
  rw [scan_dquoted_stmt w (fun c hc => (hw c hc).1)]
  have htrim_out : trim (pre ++ '"' :: w ++ ['"', ')']) =
      pre ++ '"' :: w ++ ['"', ')'] := by
    rw [show pre ++ '"' :: w ++ ['"', ')'] =
      c0 :: ((pr ++ '"' :: w ++ ['"']) ++ [')']) from by rw [hpre0]; simp]
    exact trim_eq_self_of_ends hc0 (by decide)
  simp only [List.nil_append]
  rw [htrim_out, hpre0]
  simp

/-! ### `cleanSql` on a newline-joined list of single lines -/

theorem cleanSql_intercalate {X : List (List Char)} (h : ∀ l ∈ X, '\n' ∉ l)
    (hne : X ≠ []) :
    cleanSql (List.intercalate ['\n'] X) =
      List.intercalate ['\n'] (X.filter keepLine) := by
  rw [cleanSql, splitOn_intercalate_char '\n' h hne]

theorem splitSqlStatements_all_filtered {s : List Char}
    (h : ∀ line ∈ s.splitOn '\n', keepLine line = false) :
    splitSqlStatements s = [] := by
  have hf : (s.splitOn '\n').filter keepLine = [] := by
    rw [List.filter_eq_nil_iff]
    intro a ha hk
    rw [h a ha] at hk
    exact Bool.false_ne_true hk
  rw [splitSqlStatements, cleanSql, hf]
  rfl

/-! ## The claims -/

/-- Claim C1: a semicolon inside a properly quoted single- or double-quoted
string literal never ends a statement.  For any literal body `w` free of
quote and newline characters (but possibly containing semicolons), the
INSERT template splits into the single whole statement, with the quoted
semicolons intact; concretely
`split("INSERT INTO t VALUES ('a;b');") = ["INSERT INTO t VALUES ('a;b')"]`. -/
theorem claim_C1 :
    (∀ w : List Char, (∀ c ∈ w, c ≠ '\'' ∧ c ≠ '"' ∧ c ≠ '\n') →
      splitSqlStatements ("INSERT INTO t VALUES (".data ++ '\'' :: w ++ "');".data) =
        ["INSERT INTO t VALUES (".data ++ '\'' :: w ++ "')".data] ∧
      splitSqlStatements ("INSERT INTO t VALUES (".data ++ '"' :: w ++ "\");".data) =
        ["INSERT INTO t VALUES (".data ++ '"' :: w ++ "\")".data]) ∧
    splitSqlStatements "INSERT INTO t VALUES ('a;b');".data =
      ["INSERT INTO t VALUES ('a;b')".data] := by
  refine ⟨?_, by decide⟩
  intro w hw
  constructor
  · rw [show "');".data = ['\'', ')', ';'] from by decide,
        show "')".data = ['\'', ')'] from by decide]
    exact split_squoted_template _ 'I' ("NSERT INTO t VALUES (".data)
      (by decide) (by decide) (by decide) (by decide) w
      (fun c hc => ⟨(hw c hc).1, (hw c hc).2.2⟩)
  · rw [show "\");".data = ['"', ')', ';'] from by decide,
        show "\")".data = ['"', ')'] from by decide]
    exact split_dquoted_template _ 'I' ("NSERT INTO t VALUES (".data)
      (by decide) (by decide) (by decide) (by decide) w
      (fun c hc => ⟨(hw c hc).2.1, (hw c hc).2.2⟩)

/-- Witness for C1 at `w = "a;b"`. -/
theorem claim_C1_witness :
    (∀ c ∈ "a;b".data, c ≠ '\'' ∧ c ≠ '"' ∧ c ≠ '\n') ∧
    splitSqlStatements ("INSERT INTO t VALUES (".data ++ '\'' :: "a;b".data ++ "');".data) =
      ["INSERT INTO t VALUES (".data ++ '\'' :: "a;b".data ++ "')".data] :=
  ⟨by decide, (claim_C1.1 "a;b".data (by decide)).1⟩

/-- Claim C2 counterexample: the quote-tracking splitter and the plain
split-on-';' splitter copies do not compute the same function — they disagree
on a script whose quoted literal contains a semicolon. -/
theorem claim_C2_cex :
    splitSqlStatements "INSERT INTO t VALUES ('a;b');".data ≠
      splitSqlSimple "INSERT INTO t VALUES ('a;b');".data := by decide

/-- Claim C2 (amended): on every script containing no quote characters the
quote-tracking splitter and the plain split-on-';' splitter return equal
statement lists. -/
theorem claim_C2_amended :
    ∀ s : List Char, (∀ c ∈ s, c ≠ '\'' ∧ c ≠ '"') →
      splitSqlStatements s = splitSqlSimple s :=
  fun _ h => splitSqlStatements_eq_simple_of_no_quote h

/-- Witness for the amended C2 at `s = "A;B"`. -/
theorem claim_C2_witness :
    (∀ c ∈ "A;B".data, c ≠ '\'' ∧ c ≠ '"') ∧
      splitSqlStatements "A;B".data = splitSqlSimple "A;B".data :=
  ⟨by decide, claim_C2_amended "A;B".data (by decide)⟩

/-- Claim C5: when the scanner, not inside a double-quoted literal, meets a
single quote immediately followed by another single quote, it emits both
characters and advances two positions without toggling the single-quote flag;
consequently the doubled-quote example stays one whole statement. -/
theorem claim_C5 :
    (∀ (rest cur : List Char) (inS : Bool) (acc : List (List Char)),
      scanAux ('\'' :: '\'' :: rest) inS false cur acc =
        scanAux rest inS false (cur ++ ['\'', '\'']) acc) ∧
    splitSqlStatements "INSERT INTO t VALUES ('it''s ok');".data =
      ["INSERT INTO t VALUES ('it''s ok')".data] :=
  ⟨scanAux_squote_doubled, by decide⟩

/-- Claim C7: every element of `split(s)` carries no leading or trailing
whitespace (it equals its own trim), is non-empty, and is not
whitespace-only. -/
theorem claim_C7 :
    ∀ (s t : List Char), t ∈ splitSqlStatements s →
      trim t = t ∧ t ≠ [] ∧ t.all isWS = false := by
  intro s t ht
  obtain ⟨h1, h2⟩ := splitSqlStatements_mem_inv ht
  refine ⟨h1, h2, ?_⟩
  by_contra hall
  rw [Bool.not_eq_false, List.all_eq_true] at hall
  have hnil : trim t = [] := trim_eq_nil_of_all_ws (fun c hc => hall c hc)
  exact h2 (h1 ▸ hnil)

/-- Witness for C7 at `s = " A ;"`, `t = "A"`. -/
theorem claim_C7_witness :
    "A".data ∈ splitSqlStatements " A ;".data ∧
      (trim "A".data = "A".data ∧ "A".data ≠ [] ∧ ("A".data).all isWS = false) :=
  ⟨by decide, claim_C7 " A ;".data "A".data (by decide)⟩

/-- Claim C8: the splitter has no failure path, and once the scanner is inside
an (unmatched) quoted literal and no further quote character occurs, no later
semicolon is treated as a boundary: the whole remainder is appended to the
buffer and emitted as one final statement, or nothing if it trims to empty.
Concretely `split("A; 'b;c") = ["A", "'b;c"]`. -/
theorem claim_C8 :
    (∀ (rest : List Char), (∀ c ∈ rest, c ≠ '\'' ∧ c ≠ '"') →
      ∀ (inS inD : Bool), (inS || inD) = true →
        ∀ (cur : List Char) (acc : List (List Char)),
          scanAux rest inS inD cur acc =
            acc ++ (if (trim (cur ++ rest)).isEmpty then []
                    else [trim (cur ++ rest)])) ∧
    splitSqlStatements "A; 'b;c".data = ["A".data, "'b;c".data] := by
  constructor
  · intro rest h inS inD hq cur acc
    exact scanAux_quoted_run rest h hq cur acc
  · decide

/-- Witness for C8: scanning `"b;c"` with the single-quote flag set. -/
theorem claim_C8_witness :
    ((∀ c ∈ "b;c".data, c ≠ '\'' ∧ c ≠ '"') ∧ (true || false) = true) ∧
      scanAux "b;c".data true false "'".data [] =
        (if (trim ("'".data ++ "b;c".data)).isEmpty then []
         else [trim ("'".data ++ "b;c".data)]) := by
  refine ⟨⟨by decide, rfl⟩, ?_⟩
  have h := claim_C8.1 "b;c".data (by decide) true false rfl "'".data []
  simpa using h

/-- Claim C9: the scan is total and terminates — the index advances by one or
two positions each iteration, so fuel `k + length` (one unit per remaining
character) never runs out and the fuel-bounded scanner always returns `some`
of the total scanner's result; in particular the splitter's scan completes
within `(cleanSql s).length` iterations on every input. -/
theorem claim_C9 :
    (∀ (l : List Char) (inS inD : Bool) (cur : List Char) (acc : List (List Char))
      (k : Nat),
      scanFuel (k + l.length) l inS inD cur acc = some (scanAux l inS inD cur acc)) ∧
    ∀ s : List Char,
      scanFuel (cleanSql s).length (cleanSql s) false false [] [] =
        some (splitSqlStatements s) := by
  refine ⟨scanFuel_enough, ?_⟩
  intro s
  have h := scanFuel_enough (cleanSql s) false false [] [] 0
  rw [Nat.zero_add] at h
  exact h

/-- Claim C3 counterexample: with `s = "'a"` (an unterminated quote), every
statement of `split(s)` is free of semicolons of any kind, yet joining with
`';'` plus a trailing `';'` and re-splitting does not reproduce `split(s)`. -/
theorem claim_C3_cex :
    splitSqlStatements "'a".data = ["'a".data] ∧
    ';' ∉ "'a".data ∧
    splitSqlStatements
        (List.intercalate [';'] (splitSqlStatements "'a".data) ++ [';']) ≠
      splitSqlStatements "'a".data := by
  refine ⟨by decide, by decide, by decide⟩

/-- Claim C3 (amended): if every statement of `split(s)` contains no
semicolon, no quote character, and no line that the comment/blank filter
would discard, then joining the statements with `';'` followed by a trailing
`';'` and re-splitting yields exactly `split(s)`. -/
theorem claim_C3_amended :
    ∀ s : List Char,
      (∀ t ∈ splitSqlStatements s, ';' ∉ t ∧ '\'' ∉ t ∧ '"' ∉ t ∧
        ∀ l ∈ t.splitOn '\n', keepLine l = true) →
      splitSqlStatements (List.intercalate [';'] (splitSqlStatements s) ++ [';']) =
        splitSqlStatements s := by
  intro s h
  apply split_joinStmts
  intro t ht
  obtain ⟨h1, h2⟩ := splitSqlStatements_mem_inv ht
  obtain ⟨h3, h4, h5, h6⟩ := h t ht
  exact ⟨h1, h2, h3, h4, h5, h6⟩

/-- Witness for the amended C3 at `s = "A;B;"`. -/
theorem claim_C3_witness :
    (∀ t ∈ splitSqlStatements "A;B;".data, ';' ∉ t ∧ '\'' ∉ t ∧ '"' ∉ t ∧
      ∀ l ∈ t.splitOn '\n', keepLine l = true) ∧
    splitSqlStatements
        (List.intercalate [';'] (splitSqlStatements "A;B;".data) ++ [';']) =
      splitSqlStatements "A;B;".data :=
  ⟨by decide, claim_C3_amended "A;B;".data (by decide)⟩

/-- Claim C4: the filter discards exactly the lines whose trimmed form starts
with `--` or is empty — a script all of whose lines are discarded splits to
`[]`, deleting one discarded line from a line list does not change the split
at all (boundaries are unaffected), `split("") = []`,
`split("-- c\nA;\n-- c2\nB;") = ["A", "B"]`, and a comment beginning mid-line
after SQL content is not stripped. -/
theorem claim_C4 :
    (∀ s : List Char, (∀ line ∈ s.splitOn '\n', keepLine line = false) →
      splitSqlStatements s = []) ∧
    (∀ (L1 L2 : List (List Char)) (cl : List Char),
      (∀ l ∈ L1 ++ cl :: L2, '\n' ∉ l) → keepLine cl = false →
      splitSqlStatements (List.intercalate ['\n'] (L1 ++ cl :: L2)) =
        splitSqlStatements (List.intercalate ['\n'] (L1 ++ L2))) ∧
    splitSqlStatements "".data = [] ∧
    splitSqlStatements "-- c\nA;\n-- c2\nB;".data = ["A".data, "B".data] ∧
    splitSqlStatements "A; -- tail\nB;".data = ["A".data, "-- tail\nB".data] := by
  refine ⟨fun s h => splitSqlStatements_all_filtered h, ?_, by decide, by decide,
    by decide⟩
  intro L1 L2 cl h hcl
  have h1 : cleanSql (List.intercalate ['\n'] (L1 ++ cl :: L2)) =
      List.intercalate ['\n'] ((L1 ++ cl :: L2).filter keepLine) :=
    cleanSql_intercalate h (by simp)
  have hfil : (L1 ++ cl :: L2).filter keepLine = (L1 ++ L2).filter keepLine := by
    rw [List.filter_append, List.filter_append, List.filter_cons,
      if_neg (by rw [hcl]; exact Bool.false_ne_true)]
  by_cases hL : L1 ++ L2 = []
  · rw [splitSqlStatements, h1, hfil, hL]
    decide
  · have h2 : cleanSql (List.intercalate ['\n'] (L1 ++ L2)) =
        List.intercalate ['\n'] ((L1 ++ L2).filter keepLine) := by
      apply cleanSql_intercalate
      · intro l hl
        apply h
        rcases List.mem_append.mp hl with h' | h'
        · exact List.mem_append_left _ h'
        · exact List.mem_append_right _ (List.mem_cons_of_mem _ h')
      · exact hL
    rw [splitSqlStatements, splitSqlStatements, h1, h2, hfil]

/-- Witness for C4: removing the comment line `-- c` between `A;` and `B;`. -/
theorem claim_C4_witness :
    ((∀ l ∈ ["A;".data] ++ "-- c".data :: ["B;".data], '\n' ∉ l) ∧
      keepLine "-- c".data = false) ∧
    splitSqlStatements
        (List.intercalate ['\n'] (["A;".data] ++ "-- c".data :: ["B;".data])) =
      splitSqlStatements (List.intercalate ['\n'] (["A;".data] ++ ["B;".data])) :=
  ⟨⟨by decide, by decide⟩,
    claim_C4.2.1 ["A;".data] ["B;".data] "-- c".data (by decide) (by decide)⟩

/-- The `";\n"`-joined list of well-behaved statements (no semicolons, no
quotes, only kept lines) re-splits to itself, with or without a trailing
semicolon. -/
theorem split_joinSep (ts : List (List Char))
    (h : ∀ t ∈ ts, trim t = t ∧ t ≠ [] ∧ ';' ∉ t ∧ '\'' ∉ t ∧ '"' ∉ t ∧
      (∀ l ∈ t.splitOn '\n', keepLine l = true)) :
    splitSqlStatements (List.intercalate [';', '\n'] ts) = ts ∧
    splitSqlStatements (List.intercalate [';', '\n'] ts ++ [';']) = ts := by
  rcases ts with _ | ⟨t0, ts'⟩
  · constructor <;> decide
  · have hne : (t0 :: ts') ≠ [] := List.cons_ne_nil _ _
    have hlines := joinSep_lines_keep (t0 :: ts') (fun u hu => (h u hu).2.2.2.2.2) hne
    have hnq : ∀ c ∈ joinSep (t0 :: ts'), c ≠ '\'' ∧ c ≠ '"' := by
      intro c hc
      rcases mem_joinSep hc with rfl | rfl | ⟨u, hu, hcu⟩
      · exact ⟨by decide, by decide⟩
      · exact ⟨by decide, by decide⟩
      · exact ⟨fun he => (h u hu).2.2.2.1 (he ▸ hcu),
          fun he => (h u hu).2.2.2.2.1 (he ▸ hcu)⟩
    have hres := joinSep_split_result (t0 :: ts')
      (fun u hu => ⟨(h u hu).1, (h u hu).2.1, (h u hu).2.2.1⟩) hne
    rw [← joinSep_eq_intercalate]
    constructor
    · have hclean : cleanSql (joinSep (t0 :: ts')) = joinSep (t0 :: ts') := by
        rw [cleanSql, List.filter_eq_self.mpr hlines, intercalate_splitOn_char]
      rw [splitSqlStatements, hclean, scanAux_no_quote _ hnq]
      rcases hsp : (joinSep (t0 :: ts')).splitOn ';' with _ | ⟨h0, tl⟩
      · exact absurd hsp (splitOn_ne_nil _ _)
      · rw [hsp] at hres
        simp only [tailSplit, hsp]
        simpa using hres
    · have hlines2 : ∀ line ∈ (joinSep (t0 :: ts') ++ [';']).splitOn '\n',
          keepLine line = true := by
        obtain ⟨pre, l1, f2, post, h1, h2, h3⟩ :=
          splitOn_append '\n' (joinSep (t0 :: ts')) [';']
        have hsemi : ([';'] : List Char).splitOn '\n' = [[';']] := rfl
        rw [hsemi] at h2
        injection h2 with h2a h2b
        intro line hline
        rw [h3] at hline
        rcases List.mem_append.mp hline with hp | hr
        · exact hlines line (by rw [h1]; exact List.mem_append_left _ hp)
        · rcases List.mem_cons.mp hr with rfl | hpost
          · rw [← h2a]
            have hl1 : keepLine l1 = true :=
              hlines l1
                (by rw [h1]; exact List.mem_append_right _ (List.mem_singleton.mpr rfl))
            exact keepLine_glue hl1 []
          · rw [← h2b] at hpost
            simp at hpost
      have hnq2 : ∀ c ∈ joinSep (t0 :: ts') ++ [';'], c ≠ '\'' ∧ c ≠ '"' := by
        intro c hc
        rcases List.mem_append.mp hc with h' | h'
        · exact hnq c h'
        · rw [List.mem_singleton] at h'
          subst h'
          exact ⟨by decide, by decide⟩
      have hclean2 : cleanSql (joinSep (t0 :: ts') ++ [';']) =
          joinSep (t0 :: ts') ++ [';'] := by
        rw [cleanSql, List.filter_eq_self.mpr hlines2, intercalate_splitOn_char]
      rw [splitSqlStatements, hclean2, scanAux_no_quote _ hnq2]
      rcases hsp : (joinSep (t0 :: ts')).splitOn ';' with _ | ⟨h0, tl⟩
      · exact absurd hsp (splitOn_ne_nil _ _)
      · have hcat : (joinSep (t0 :: ts') ++ [';']).splitOn ';' = (h0 :: tl) ++ [[]] := by
          rw [splitOn_concat_sep, hsp]
        rw [hsp] at hres
        simp only [tailSplit, hcat]
        simp only [List.cons_append, List.nil_append]
        rw [show (h0 :: (tl ++ [[]])) = (h0 :: tl) ++ [[]] from rfl]
        rw [List.map_append, List.filter_append]
        rw [hres]
        simp [trim_nil]

/-- Claim C6 counterexample: the statement `a₁ = "A\n\nB"` is trimmed,
non-empty, has no semicolons, no quote characters, and no line whose trimmed
form starts with `--`, yet splitting the `";\n"`-joined list `[a₁]` does not
return `[a₁]` — the blank interior line is discarded by the filter. -/
theorem claim_C6_cex :
    trim "A\n\nB".data = "A\n\nB".data ∧ "A\n\nB".data ≠ [] ∧
    ';' ∉ "A\n\nB".data ∧ '\'' ∉ "A\n\nB".data ∧ '"' ∉ "A\n\nB".data ∧
    (∀ l ∈ ("A\n\nB".data).splitOn '\n', startsDashDash (trim l) = false) ∧
    splitSqlStatements (List.intercalate [';', '\n'] ["A\n\nB".data]) ≠
      ["A\n\nB".data] := by
  refine ⟨by decide, by decide, by decide, by decide, by decide, by decide, by decide⟩

/-- Claim C6 (amended): for every finite list of trimmed, non-empty statements
with no semicolons, no quote characters, and no line that the comment/blank
filter would discard, splitting their `";\n"`-joined concatenation (with or
without a trailing semicolon) returns exactly that list, in order, with no
merging, reordering or deduplication; concretely `split("A;\nB") = ["A", "B"]`
and `split("A;A;") = ["A", "A"]`. -/
theorem claim_C6_amended :
    (∀ ts : List (List Char),
      (∀ t ∈ ts, trim t = t ∧ t ≠ [] ∧ ';' ∉ t ∧ '\'' ∉ t ∧ '"' ∉ t ∧
        (∀ l ∈ t.splitOn '\n', keepLine l = true)) →
      splitSqlStatements (List.intercalate [';', '\n'] ts) = ts ∧
      splitSqlStatements (List.intercalate [';', '\n'] ts ++ [';']) = ts) ∧
    splitSqlStatements "A;\nB".data = ["A".data, "B".data] ∧
    splitSqlStatements "A;A;".data = ["A".data, "A".data] :=
  ⟨fun ts h => split_joinSep ts h, by decide, by decide⟩

/-- Witness for the amended C6 at `ts = ["A", "B"]`. -/
theorem claim_C6_witness :
    (∀ t ∈ ["A".data, "B".data],
      trim t = t ∧ t ≠ [] ∧ ';' ∉ t ∧ '\'' ∉ t ∧ '"' ∉ t ∧
        (∀ l ∈ t.splitOn '\n', keepLine l = true)) ∧
    splitSqlStatements (List.intercalate [';', '\n'] ["A".data, "B".data]) =
      ["A".data, "B".data] :=
  ⟨by decide, (claim_C6_amended.1 ["A".data, "B".data] (by decide)).1⟩

/-- Claim C10 (implicit): because comment/blank-line filtering runs on raw
lines before any quote tracking, a line inside a multi-line quoted literal
whose trimmed form starts with `--` is deleted from the literal's content:
the line `-- b` is absent from the quoted literal in the result. -/
theorem claim_C10 :
    splitSqlStatements "INSERT INTO t VALUES ('a\n-- b\nc');".data =
      ["INSERT INTO t VALUES ('a\nc')".data] := by decide

end Bit2
